import Mathlib
/-!
Verification of the course-planner eligibility core (`Courseplanner.py`).

The Python source is shallowly embedded: course records become a structure,
`Dict[str, Course]` becomes an association list `List (String × Course)`
(Python dicts iterate in insertion order, which the list order models),
Python sets of code strings become `List String` used up to membership, and
the `while` fixed-point loop of `available_courses` becomes a fuel-based
recursion whose fuel `catalog.length + 1` is proved sufficient.

String normalization (`_normalize_code`) is modelled over the fragment the
catalog actually uses: whitespace handling covers the ASCII whitespace
characters plus the non-breaking space `\xa0` that the source mentions
explicitly, and `str.upper()` is modelled by `Char.toUpper`, which uppercases
exactly the basic latin letters. Python `float` credit values are modelled by
`Option ℚ`; the core never computes with them, it only stores and copies them.
-/

namespace CoursePlanner

/-- Whitespace, as stripped and collapsed by `_normalize_code`: the ASCII
whitespace characters matched by Python's `str.strip` / `\s` plus the
non-breaking space U+00A0 that the source replaces by a plain space. -/
def isWs (c : Char) : Bool :=
  c.toNat = 32 || c.toNat = 9 || c.toNat = 10 || c.toNat = 13 ||
  c.toNat = 11 || c.toNat = 12 || c.toNat = 0xa0

/-- Uppercasing of one character; `Char.toUpper` uppercases exactly the basic
latin letters, which models `str.upper()` on the course-code alphabet. -/
def up (c : Char) : Char := Char.toUpper c

/-- Replacement step of `_normalize_code`: `.replace("\xa0", " ")`. -/
def repNbsp (c : Char) : Char := if c.toNat = 0xa0 then ' ' else c

/-- Auxiliary for `re.sub(r"\s+", " ", s)`: collapse every maximal run of
whitespace to a single space. The boolean records whether the previous
character was whitespace (so the run is already represented). -/
def collapseAux : Bool → List Char → List Char
  | _, [] => []
  | prevWs, c :: cs =>
    if isWs c then
      if prevWs then collapseAux true cs else ' ' :: collapseAux true cs
    else
      c :: collapseAux false cs

/-- Collapse whitespace runs to single spaces (`re.sub(r"\s+", " ", s)`). -/
def collapseWs (l : List Char) : List Char := collapseAux false l

/-- Model of `str.strip()`: drop whitespace from both ends. -/
def stripWs (l : List Char) : List Char :=
  ((l.dropWhile isWs).reverse.dropWhile isWs).reverse

/-- Character-list pipeline of `_normalize_code`: strip, uppercase, replace
non-breaking spaces, collapse whitespace runs. -/
def normChars (l : List Char) : List Char :=
  collapseWs (((stripWs l).map up).map repNbsp)

/-- Embedding of `_normalize_code`: trim, uppercase, replace `\xa0` with a
space, collapse internal whitespace runs to one space. -/
def _normalize_code (s : String) : String := ⟨normChars s.data⟩

/-- Lexicographic comparison of character lists by code point; this is how
Python compares strings, hence how `sorted` orders course codes. -/
def charListLe : List Char → List Char → Bool
  | [], _ => true
  | _ :: _, [] => false
  | a :: as, b :: bs => if a < b then true else if b < a then false else charListLe as bs

/-- Python string order (code-point lexicographic `<=`), used for `sorted`. -/
def strLeb (a b : String) : Bool := charListLe a.data b.data

/-- Insert a string into an already sorted list (auxiliary for `sortCodes`). -/
def insertSorted (x : String) : List String → List String
  | [] => [x]
  | y :: ys => if strLeb x y then x :: y :: ys else y :: insertSorted x ys

/-- Model of Python `sorted` on lists of code strings (insertion sort by
code-point order; the sorted inputs in this development have distinct or
interchangeable elements, so any correct sort produces the same list). -/
def sortCodes (l : List String) : List String := l.foldr insertSorted []

/-- Embedding of the `Course` dataclass. `credits` is Python's optional float,
modelled as an optional rational; the core only stores and copies it. -/
structure Course where
  code : String
  name : String
  credits : Option ℚ
  prereq_groups : List (List String)
  concurrent_groups : List (List String)
  description : Option String
deriving DecidableEq, Repr

/-- Embedding of `Dict[str, Course]`: an association list from (normalized)
course-code key to course record, in dict insertion order. -/
abbrev Catalog := List (String × Course)

/-- Keyed lookup `catalog.get(code)` / `catalog[code]`. -/
def catFind (catalog : Catalog) (code : String) : Option Course :=
  (catalog.find? (fun kc => kc.1 == code)).map (fun kc => kc.2)

/-- Course codes of the catalog records (the values, not the keys). -/
def catCodes (catalog : Catalog) : List String :=
  catalog.map (fun kc => kc.2.code)

/-- Non-empty intersection `group & s` of a requirement group with a set of
codes, as tested by `can_take_this_term`. -/
def hits (group : List String) (s : List String) : Bool :=
  group.any (fun x => s.contains x)

/-- Embedding of `can_take_this_term`: every prerequisite group must intersect
`completed`, and every concurrent group must intersect `completed | planned`. -/
def can_take_this_term (course : Course) (completed planned : List String) : Bool :=
  course.prereq_groups.all (fun g => hits g completed) &&
  course.concurrent_groups.all (fun g => hits g (completed ++ planned))

/-- Body of one iteration of the `for course in catalog.values():` loop inside
`available_courses`: skip a course already completed or planned, otherwise add
it to `planned` when `can_take_this_term` holds. -/
def passStep (completed : List String) (pl : List String) (kc : String × Course) : List String :=
  if completed.contains kc.2.code || pl.contains kc.2.code then pl
  else if can_take_this_term kc.2 completed pl then pl ++ [kc.2.code]
  else pl

/-- One full pass of the `while True:` loop body of `available_courses`: scan
the catalog in order, adding each course that is not already completed or
planned and is currently takeable. -/
def pass1 (catalog : Catalog) (completed planned : List String) : List String :=
  catalog.foldl (passStep completed) planned

/-- The fixed-point loop of `available_courses`, with explicit fuel: repeat
passes until a pass adds nothing. Fuel `catalog.length + 1` is proved
sufficient below (each productive pass adds at least one of the finitely many
catalog codes), so this equals the unbounded Python loop. -/
def loopAux (catalog : Catalog) (completed : List String) : Nat → List String → List String
  | 0, pl => pl
  | fuel + 1, pl =>
    let p := pass1 catalog completed pl
    if p = pl then pl else loopAux catalog completed fuel p

/-- Normalization of the caller-supplied completed set,
`{_normalize_code(c) for c in completed}`. -/
def normSet (completed : List String) : List String :=
  completed.map _normalize_code

/-- The `planned` set at the end of the fixed-point loop of
`available_courses` (before sorting and record lookup). -/
def availablePlanned (catalog : Catalog) (completed : List String) : List String :=
  loopAux catalog (normSet completed) (catalog.length + 1) []

/-- Embedding of `available_courses`: run the fixed-point loop, then return
`[catalog[code] for code in sorted(planned)]`. -/
def available_courses (catalog : Catalog) (completed : List String) : List Course :=
  (sortCodes (availablePlanned catalog completed)).filterMap
    (fun code => catFind catalog code)

/-- Scenario catalog of spec section 8: CMPSC 131 (no requirements),
CMPSC 132 (prerequisite group {CMPSC 131}), MATH 141 (co-requisite group
{MATH 140}), MATH 140 (no requirements). -/
def c131 : Course :=
  { code := "CMPSC 131", name := "Programming and Computation I", credits := some 3
  , prereq_groups := [], concurrent_groups := [], description := none }

def c132 : Course :=
  { code := "CMPSC 132", name := "Programming and Computation II", credits := some 3
  , prereq_groups := [["CMPSC 131"]], concurrent_groups := [], description := none }

def m141 : Course :=
  { code := "MATH 141", name := "Calculus with Analytic Geometry II", credits := some 4
  , prereq_groups := [], concurrent_groups := [["MATH 140"]], description := none }

def m140 : Course :=
  { code := "MATH 140", name := "Calculus with Analytic Geometry I", credits := some 4
  , prereq_groups := [], concurrent_groups := [], description := none }

def scenarioCatalog : Catalog :=
  [("CMPSC 131", c131), ("CMPSC 132", c132), ("MATH 141", m141), ("MATH 140", m140)]

/-- Well-formedness of a catalog as the Python code builds it: every dict key
equals the stored course's `code` field. -/
abbrev KeysOk (catalog : Catalog) : Prop := ∀ kc ∈ catalog, kc.1 = kc.2.code

/-- Well-formedness of a catalog: dict keys are distinct (automatic for a
Python dict). -/
abbrev KeysNodup (catalog : Catalog) : Prop := (catalog.map (fun kc => kc.1)).Nodup

/-- The second list extends the first on the right. -/
def ExtendsTo (l l₂ : List String) : Prop := ∃ t, l₂ = l ++ t

/-- Two-course catalog forming a pure co-requisite cycle with no other
requirements: PHYS 211 requires concurrent PHYS 212 and vice versa. -/
def coA : Course :=
  { code := "PHYS 211", name := "Mechanics", credits := some 4
  , prereq_groups := [], concurrent_groups := [["PHYS 212"]], description := none }

def coB : Course :=
  { code := "PHYS 212", name := "Electricity and Magnetism", credits := some 4
  , prereq_groups := [], concurrent_groups := [["PHYS 211"]], description := none }

def cycleCatalog : Catalog := [("PHYS 211", coA), ("PHYS 212", coB)]

/-- A chain of course codes each of which is takeable given the completed set
and the earlier members of the chain as planned: the inductive notion of
reachability that `available_courses` actually computes. -/
def chainOk (catalog : Catalog) (compN : List String) : List String → List String → Bool
  | _, [] => true
  | prev, s :: rest =>
    catalog.any (fun kc => kc.2.code == s && can_take_this_term kc.2 compN prev) &&
    !(compN.contains s) &&
    chainOk catalog compN (prev ++ [s]) rest

/-- Whether a character list starts with whitespace. -/
def headWs : List Char → Bool
  | [] => false
  | c :: _ => isWs c

/-- Whether a character list ends with whitespace. -/
def endsWs : List Char → Bool
  | [] => false
  | [c] => isWs c
  | _ :: c :: t => endsWs (c :: t)

/-- Word character in the sense of the regex `\b` boundary (`[A-Za-z0-9_]` on
the ASCII fragment the course codes use). -/
def isWordChar (c : Char) : Bool := c.isAlpha || c.isDigit || c = '_'

/-- Scan for the first match of `\b(\d{3})[A-Z]?\b` (the regex of
`course_level`), carrying the previous character for the left boundary; the
right boundary implements the regex backtracking: an optional uppercase
letter is consumed only when a word boundary follows it, and the empty
alternative requires a boundary right after the third digit. -/
def scanLevel : Option Char → List Char → Option Nat
  | _, [] => none
  | prev, c :: rest =>
    let boundaryOk : Bool := match prev with
      | none => true
      | some p => !(isWordChar p)
    if boundaryOk && c.isDigit then
      match rest with
      | d₂ :: d₃ :: rest₂ =>
        if d₂.isDigit && d₃.isDigit then
          let ok : Bool := match rest₂ with
            | [] => true
            | e :: rest₃ =>
              if e.isDigit then false
              else if 65 ≤ e.toNat && e.toNat ≤ 90 then
                (match rest₃ with
                 | [] => true
                 | f :: _ => !(isWordChar f))
              else !(isWordChar e)
          if ok then
            some ((c.toNat - 48) * 100 + (d₂.toNat - 48) * 10 + (d₃.toNat - 48))
          else scanLevel (some c) rest
        else scanLevel (some c) rest
      | _ => scanLevel (some c) rest
    else scanLevel (some c) rest

/-- Embedding of `course_level`: the first `\b(\d{3})[A-Z]?\b` group, floored
to a multiple of 100; `none` when the code has no parseable 3-digit part. -/
def course_level (code : String) : Option Nat :=
  (scanLevel none code.data).map (fun num => (num / 100) * 100)

/-- Embedding of `node_level`: 100/200/300, 400 for 400 and above, 0 for an
unparseable code. -/
def node_level (code : String) : Nat :=
  match course_level code with
  | none => 0
  | some lvl => if 400 ≤ lvl then 400 else lvl

/-- Graph node as built by the graph builders,
`{id, label, title, color, level}`. -/
structure GNode where
  id : String
  label : String
  title : String
  color : String
  level : Nat
deriving DecidableEq, Repr

/-- Graph edge `{id, from, to, label}`; the Python dict keys `from`/`to` are
spelled `efrom`/`eto` because `from` is reserved in Lean. -/
structure GEdge where
  id : String
  efrom : String
  eto : String
  label : String
deriving DecidableEq, Repr

/-- The mutable state threaded through both graph builders: the `visited`
set, the insertion-ordered `nodes` dict (as its value list), the `edges`
list, and the running edge-id counter. -/
structure GState where
  visited : List String
  nodes : List GNode
  edges : List GEdge
  edgeId : Nat
deriving Repr

def nodeIds (st : GState) : List String := st.nodes.map (fun n => n.id)

/-- Embedding of `add_node` inside `build_prereq_graph`: normalize, skip if
present, otherwise append a node record colored by target/completed/
available/locked status. -/
def addNodeP (catalog : Catalog) (root : String) (compN availN : List String)
    (code : String) (st : GState) : GState :=
  let code_n := _normalize_code code
  if st.nodes.any (fun n => n.id == code_n) then st
  else
    let lt : String × String :=
      match catFind catalog code_n with
      | some c => (c.code, c.name)
      | none => (code_n, code_n)
    let sc : String × String :=
      if code_n == root then ("target", "#ffd54f")
      else if compN.contains code_n then ("completed", "#81c784")
      else if availN.contains code_n then ("available", "#64b5f6")
      else ("locked", "#e0e0e0")
    { st with nodes := st.nodes ++
        [{ id := code_n, label := lt.1, title := lt.2 ++ " (" ++ sc.1 ++ ")"
         , color := sc.2, level := node_level code_n }] }

/-- The two group loops inside `dfs` of `build_prereq_graph`: for every
member of every group, add its node, append a labeled edge into the current
course, and recurse (the recursive call is abstracted as `rec_`). -/
def dfsEdges (addN : String → GState → GState) (rec_ : String → GState → GState)
    (code_n lbl : String) (groups : List (List String)) (st : GState) : GState :=
  groups.foldl (fun st g =>
    g.foldl (fun st pre =>
      let pre_n := _normalize_code pre
      let st₁ := addN pre_n st
      let st₂ := { st₁ with
        edges := st₁.edges ++
          [{ id := "e" ++ toString st₁.edgeId, efrom := pre_n, eto := code_n, label := lbl }]
        , edgeId := st₁.edgeId + 1 }
      rec_ pre_n st₂) st) st

/-- Body of `dfs` in `build_prereq_graph` (depth test excluded: it is the
fuel of `dfs` below): visited check, node insertion, then both group loops. -/
def dfsBody (catalog : Catalog) (root : String) (compN availN : List String)
    (rec_ : String → GState → GState) (code : String) (st : GState) : GState :=
  let code_n := _normalize_code code
  if st.visited.contains code_n then st
  else
    let st₁ := { st with visited := st.visited ++ [code_n] }
    let st₂ := addNodeP catalog root compN availN code_n st₁
    match catFind catalog code_n with
    | none => st₂
    | some course =>
      let st₃ := dfsEdges (addNodeP catalog root compN availN) rec_ code_n "prereq"
        course.prereq_groups st₂
      dfsEdges (addNodeP catalog root compN availN) rec_ code_n "concurrent"
        course.concurrent_groups st₃

/-- The recursive `dfs` of `build_prereq_graph`; a call at Python depth `d`
carries fuel `max_depth + 1 - d`, so fuel 0 is exactly the
`depth > max_depth` early return. -/
def dfs (catalog : Catalog) (root : String) (compN availN : List String) :
    Nat → String → GState → GState
  | 0, _, st => st
  | fuel + 1, code, st =>
    dfsBody catalog root compN availN (dfs catalog root compN availN fuel) code st

/-- Embedding of `build_prereq_graph`: empty graph for an unknown root,
otherwise the state after `dfs(root, 0)`. -/
def build_prereq_graph (catalog : Catalog) (root_code : String)
    (completed available : List String) (max_depth : Nat) :
    List GNode × List GEdge :=
  let root := _normalize_code root_code
  if (catalog.map (fun kc => kc.1)).contains root then
    let st := dfs catalog root (normSet completed) (normSet available) (max_depth + 1) root
      { visited := [], nodes := [], edges := [], edgeId := 0 }
    (st.nodes, st.edges)
  else ([], [])

/-- Embedding of `add_node` inside `build_future_graph`: like the backward
version but with completed/available/future status and no target case. -/
def addNodeF (catalog : Catalog) (compN availN : List String)
    (code : String) (st : GState) : GState :=
  let code_n := _normalize_code code
  if st.nodes.any (fun n => n.id == code_n) then st
  else
    let lt : String × String :=
      match catFind catalog code_n with
      | some c => (c.code, c.name)
      | none => (code_n, code_n)
    let sc : String × String :=
      if compN.contains code_n then ("completed", "#81c784")
      else if availN.contains code_n then ("available", "#64b5f6")
      else ("future", "#e0e0e0")
    { st with nodes := st.nodes ++
        [{ id := code_n, label := lt.1, title := lt.2 ++ " (" ++ sc.1 ++ ")"
         , color := sc.2, level := node_level code_n }] }

/-- The adjacency entries accumulated for one key by the first loop of
`build_future_graph`: for every catalog course, every member of every
requirement group normalizing to the key contributes one
`(course_code, label)` successor, in catalog-then-group order. -/
def adjacencyFor (catalog : Catalog) (key : String) : List (String × String) :=
  catalog.foldl (fun acc kc =>
    acc
    ++ (kc.2.prereq_groups.foldl (fun a g =>
          a ++ (g.filter (fun pre => _normalize_code pre == key)).map
            (fun _ => (_normalize_code kc.2.code, "prereq"))) [])
    ++ (kc.2.concurrent_groups.foldl (fun a g =>
          a ++ (g.filter (fun pre => _normalize_code pre == key)).map
            (fun _ => (_normalize_code kc.2.code, "concurrent"))) [])) []

/-- The breadth-first loop of `build_future_graph` over the deque of
`(code, depth)` entries, with explicit fuel (each iteration pops one entry;
`build_future_graph` supplies fuel exceeding the total number of queue
insertions, so the queue always drains). -/
def bfs (catalog : Catalog) (compN availN : List String) (max_depth : Nat) :
    Nat → List (String × Nat) → GState → GState
  | 0, _, st => st
  | _ + 1, [], st => st
  | fuel + 1, (code, depth) :: rest, st =>
    let code_n := _normalize_code code
    if st.visited.contains code_n then bfs catalog compN availN max_depth fuel rest st
    else
      let st₁ := { st with visited := st.visited ++ [code_n] }
      let st₂ := addNodeF catalog compN availN code_n st₁
      if max_depth ≤ depth then bfs catalog compN availN max_depth fuel rest st₂
      else
        let step := (adjacencyFor catalog code_n).foldl
          (fun (acc : GState × List (String × Nat)) nl =>
            let nbr_n := _normalize_code nl.1
            let st₃ := addNodeF catalog compN availN nbr_n acc.1
            let st₄ := { st₃ with
              edges := st₃.edges ++
                [{ id := "e" ++ toString st₃.edgeId, efrom := code_n, eto := nbr_n, label := nl.2 }]
              , edgeId := st₃.edgeId + 1 }
            (st₄, acc.2 ++ [(nbr_n, depth + 1)]))
          (st₂, [])
        bfs catalog compN availN max_depth fuel (rest ++ step.2) step.1

/-- Total number of requirement-group member occurrences in the catalog: an
upper bound on the adjacency fan-out used to compute sufficient BFS fuel. -/
def totalAdj (catalog : Catalog) : Nat :=
  (catalog.map (fun kc =>
    (kc.2.prereq_groups.map List.length).sum +
    (kc.2.concurrent_groups.map List.length).sum)).sum

/-- Embedding of `build_future_graph`: seed the queue with the normalized
completed and available codes at depth 0 and run the breadth-first loop.
Python seeds from the set `completed | available`; the concatenated list has
the same members, and the visited check makes any duplicate pop a no-op. The
fuel over-approximates the total number of queue insertions (at most the
seeds plus one push per adjacency entry for each of the at most
`seeds + totalAdj` distinct visited codes), so the loop always drains. -/
def build_future_graph (catalog : Catalog) (completed available : List String)
    (max_depth : Nat) : List GNode × List GEdge :=
  let compN := normSet completed
  let availN := normSet available
  let start := compN ++ availN
  let fuel := start.length + (start.length + totalAdj catalog) * totalAdj catalog + 1
  let st := bfs catalog compN availN max_depth fuel (start.map (fun c => (c, 0)))
    { visited := [], nodes := [], edges := [], edgeId := 0 }
  (st.nodes, st.edges)

/-- The node list of the second state extends that of the first (nodes are
only ever appended by the graph builders). -/
def NExt (st₀ st : GState) : Prop := ∃ t, st.nodes = st₀.nodes ++ t

/-- No dangling edges: every edge endpoint is the id of a present node. -/
def EdgesClosed (st : GState) : Prop :=
  ∀ e ∈ st.edges, e.efrom ∈ nodeIds st ∧ e.eto ∈ nodeIds st

/-- Serialized course record of the JSON catalog cache
(`catalog_to_json_dict` entry): requirement groups become sorted code lists. -/
structure CourseJson where
  code : String
  name : String
  credits : Option ℚ
  prereq_groups : List (List String)
  concurrent_groups : List (List String)
  description : Option String
deriving DecidableEq, Repr

/-- Embedding of `catalog_to_json_dict`: each record's fields are copied, with
every requirement group serialized as `sorted(list(group))`. -/
def catalog_to_json_dict (catalog : Catalog) : List (String × CourseJson) :=
  catalog.map (fun kc =>
    (kc.1,
     { code := kc.2.code, name := kc.2.name, credits := kc.2.credits
     , prereq_groups := kc.2.prereq_groups.map sortCodes
     , concurrent_groups := kc.2.concurrent_groups.map sortCodes
     , description := kc.2.description }))

/-- Embedding of `catalog_from_json_dict`: rebuild course records, reading
each serialized group back as a set (here: the list standing for its set of
members). -/
def catalog_from_json_dict (data : List (String × CourseJson)) : Catalog :=
  data.map (fun ko =>
    (ko.1,
     { code := ko.2.code, name := ko.2.name, credits := ko.2.credits
     , prereq_groups := ko.2.prereq_groups
     , concurrent_groups := ko.2.concurrent_groups
     , description := ko.2.description }))

/-- Equality of requirement groups as sets (Python compares `set[str]`, for
which only membership matters). -/
def GroupSetEq (g g₂ : List String) : Prop := ∀ x, x ∈ g ↔ x ∈ g₂

/-- Record equality after a round trip: every scalar field equal, and the
requirement-group sequences pairwise equal as sets. This is exactly Python
`==` on the dataclass, whose groups are sets. -/
def CourseEquiv (c c₂ : Course) : Prop :=
  c.code = c₂.code ∧ c.name = c₂.name ∧ c.credits = c₂.credits ∧
  c.description = c₂.description ∧
  List.Forall₂ GroupSetEq c.prereq_groups c₂.prereq_groups ∧
  List.Forall₂ GroupSetEq c.concurrent_groups c₂.concurrent_groups

/-- Structured result of the Explain Engine diagnostic: the unmet
prerequisite groups and unmet co-requisite groups, as sorted code lists. -/
structure Explanation where
  missing_prerequisites : List (List String)
  missing_concurrent : List (List String)
deriving DecidableEq, Repr

/-- Modelled from the spec: `explain_why_not` is imported by
`src/Backend/app.py` from a Courseplanner module whose version with this
function is not present under `src/`; only its caller is. Section 4.3 of the
spec defines the contract followed here: `none` when the normalized code is
absent from the catalog (the `NotFoundError` case); otherwise collect the
prerequisite groups with empty intersection with `completed` and the
co-requisite groups with empty intersection with `completed ∪ {course_code}`
as sorted code lists. -/
def explain_why_not (catalog : Catalog) (course_code : String) (completed : List String) :
    Option Explanation :=
  let codeN := _normalize_code course_code
  let compN := normSet completed
  match catFind catalog codeN with
  | none => none
  | some c =>
    some
      { missing_prerequisites :=
          (c.prereq_groups.filter (fun g => !(hits g compN))).map sortCodes
      , missing_concurrent :=
          (c.concurrent_groups.filter (fun g => !(hits g (compN ++ [codeN])))).map sortCodes }

/-- Chain catalog whose co-requisites unlock one another transitively:
CHEM 110 has no requirements, CHEM 111 requires concurrent CHEM 110, and
CHEM 112 requires concurrent CHEM 111. -/
def chA : Course :=
  { code := "CHEM 110", name := "Chemical Principles I", credits := some 3
  , prereq_groups := [], concurrent_groups := [], description := none }

def chB : Course :=
  { code := "CHEM 111", name := "Experimental Chemistry I", credits := some 1
  , prereq_groups := [], concurrent_groups := [["CHEM 110"]], description := none }

def chC : Course :=
  { code := "CHEM 112", name := "Chemical Principles II", credits := some 3
  , prereq_groups := [], concurrent_groups := [["CHEM 111"]], description := none }

def chainCatalog : Catalog := [("CHEM 110", chA), ("CHEM 111", chB), ("CHEM 112", chC)]

/-- Dependencies of one course code for the progression graph: all codes in
its prerequisite and co-requisite groups that are present in the catalog
(spec section 4.4, step 2). -/
def depsOf (catalog : Catalog) (code : String) : List String :=
  match catFind catalog code with
  | none => []
  | some c =>
    (((c.prereq_groups ++ c.concurrent_groups).flatten).map _normalize_code).filter
      (fun d => (catalog.map (fun kc => kc.1)).contains d)

/-- Breadth-first expansion for exactly `max_depth` rounds: returns the codes
visited during the rounds (`seen`) and the final frontier. -/
def expandRounds (catalog : Catalog) : Nat → List String → List String × List String
  | 0, frontier => ([], frontier)
  | d + 1, frontier =>
    let res := expandRounds catalog d ((frontier.map (depsOf catalog)).flatten)
    (frontier ++ res.1, res.2)

/-- The accumulated node-code set of the progression graph before truncation:
seed (completed plus eligible codes) together with everything seen during the
expansion and the final frontier, deduplicated. -/
def progressionCodes (catalog : Catalog) (completed : List String) (max_depth : Nat) :
    List String :=
  let eligibleCodes := (available_courses catalog completed).map (fun c => c.code)
  let seed := normSet completed ++ eligibleCodes
  let er := expandRounds catalog max_depth seed
  (seed ++ er.1 ++ er.2).dedup

/-- Progression-graph node `{id, label, status, level}` (spec section 3). -/
structure PNode where
  id : String
  label : String
  status : String
  level : Nat
deriving DecidableEq, Repr

/-- Progression-graph edge `{from, to, kind}` (spec section 3); Python keys
`from`/`to` are spelled `efrom`/`eto`. -/
structure PEdge where
  efrom : String
  eto : String
  kind : String
deriving DecidableEq, Repr

/-- Modelled from the spec: `build_progression_graph` is imported by
`src/Backend/app.py` from a Courseplanner module whose version with this
function is not present under `src/`; only its caller is. Section 4.4 of the
spec defines the construction followed here: compute the eligible courses,
expand breadth-first from `completed ∪ eligible` for `max_depth` rounds,
sort the accumulated node set by normalized code and truncate to `max_nodes`
entries, assign completed/eligible/locked status and clamped level, and emit
edges only between included nodes. -/
def build_progression_graph (catalog : Catalog) (completed : List String)
    (max_depth max_nodes : Nat) : List PNode × List PEdge × List Course :=
  let eligible := available_courses catalog completed
  let eligibleCodes := eligible.map (fun c => c.code)
  let compN := normSet completed
  let included := (sortCodes (progressionCodes catalog completed max_depth)).take max_nodes
  let nodes := included.map (fun code =>
    ({ id := code, label := code
     , status := if compN.contains code then "completed"
         else if eligibleCodes.contains code then "eligible" else "locked"
     , level := node_level code } : PNode))
  let edges := catalog.foldl (fun acc kc =>
    acc
    ++ (kc.2.prereq_groups.foldl (fun a g =>
        a ++ (g.filter (fun p => included.contains (_normalize_code p) &&
                included.contains (_normalize_code kc.2.code))).map
          (fun p => ({ efrom := _normalize_code p, eto := _normalize_code kc.2.code
                     , kind := "prereq" } : PEdge))) [])
    ++ (kc.2.concurrent_groups.foldl (fun a g =>
        a ++ (g.filter (fun p => included.contains (_normalize_code p) &&
                included.contains (_normalize_code kc.2.code))).map
          (fun p => ({ efrom := _normalize_code p, eto := _normalize_code kc.2.code
                     , kind := "concurrent" } : PEdge))) [])) []
  (nodes, edges, eligible)

lemma extendsTo_rfl {l : List String} : ExtendsTo l l := ⟨[], by simp⟩

lemma extendsTo_trans {a b c : List String} (h₁ : ExtendsTo a b) (h₂ : ExtendsTo b c) :
    ExtendsTo a c := by
  obtain ⟨t₁, rfl⟩ := h₁
  obtain ⟨t₂, rfl⟩ := h₂
  exact ⟨t₁ ++ t₂, by simp⟩

lemma extendsTo_antisymm {a b : List String} (h₁ : ExtendsTo a b) (h₂ : ExtendsTo b a) :
    a = b := by
  obtain ⟨t₁, rfl⟩ := h₁
  obtain ⟨t₂, ht⟩ := h₂
  rw [List.append_assoc] at ht
  have hlen := congrArg List.length ht
  rw [List.length_append] at hlen
  have ht₁ : t₁ = [] := by
    rw [List.length_append] at hlen
    exact List.eq_nil_of_length_eq_zero (by omega)
  simp [ht₁]

lemma passStep_cases (completed pl : List String) (kc : String × Course) :
    passStep completed pl kc = pl ∨
    (passStep completed pl kc = pl ++ [kc.2.code] ∧
      kc.2.code ∉ completed ∧ kc.2.code ∉ pl ∧
      can_take_this_term kc.2 completed pl = true) := by
  by_cases hin : kc.2.code ∈ completed ∨ kc.2.code ∈ pl
  · left
    have hb : (completed.contains kc.2.code || pl.contains kc.2.code) = true := by
      simpa using hin
    unfold passStep
    rw [if_pos hb]
  · have hb : ¬((completed.contains kc.2.code || pl.contains kc.2.code) = true) := by
      simpa using hin
    by_cases h₂ : can_take_this_term kc.2 completed pl = true
    · right
      refine ⟨?_, (not_or.1 hin).1, (not_or.1 hin).2, h₂⟩
      unfold passStep
      rw [if_neg hb, if_pos h₂]
    · left
      unfold passStep
      rw [if_neg hb, if_neg h₂]

lemma passStep_extends (completed pl : List String) (kc : String × Course) :
    ExtendsTo pl (passStep completed pl kc) := by
  rcases passStep_cases completed pl kc with h | ⟨h, -⟩
  · rw [h]; exact extendsTo_rfl
  · exact ⟨[kc.2.code], h⟩

lemma foldl_passStep_extends (completed : List String) :
    ∀ (l : List (String × Course)) (pl : List String),
      ExtendsTo pl (l.foldl (passStep completed) pl) := by
  intro l
  induction l with
  | nil => intro pl; exact extendsTo_rfl
  | cons kc t ih =>
    intro pl
    rw [List.foldl_cons]
    exact extendsTo_trans (passStep_extends completed pl kc) (ih _)

lemma pass1_extends (catalog : Catalog) (completed pl : List String) :
    ExtendsTo pl (pass1 catalog completed pl) :=
  foldl_passStep_extends completed catalog pl

/-- Generic invariant preserved along one pass: any predicate stable under
adding a not-yet-planned, not-completed, currently takeable catalog course. -/
lemma foldl_passStep_invariant (completed : List String) (P : List String → Prop)
    (l : List (String × Course))
    (step : ∀ pl kc, kc ∈ l → P pl → kc.2.code ∉ completed → kc.2.code ∉ pl →
      can_take_this_term kc.2 completed pl = true → P (pl ++ [kc.2.code])) :
    ∀ pl, P pl → P (l.foldl (passStep completed) pl) := by
  induction l with
  | nil => intro pl h; simpa using h
  | cons kc t ih =>
    intro pl h
    rw [List.foldl_cons]
    refine ih (fun pl₂ kc₂ hmem => step pl₂ kc₂ (List.mem_cons_of_mem _ hmem)) _ ?_
    rcases passStep_cases completed pl kc with he | ⟨he, hnc, hnp, htake⟩
    · rwa [he]
    · rw [he]
      exact step pl kc (List.mem_cons_self _ _) h hnc hnp htake

lemma pass1_invariant (catalog : Catalog) (completed : List String) (P : List String → Prop)
    (step : ∀ pl kc, kc ∈ catalog → P pl → kc.2.code ∉ completed → kc.2.code ∉ pl →
      can_take_this_term kc.2 completed pl = true → P (pl ++ [kc.2.code]))
    (pl : List String) (h : P pl) : P (pass1 catalog completed pl) :=
  foldl_passStep_invariant completed P catalog step pl h

lemma loopAux_invariant (catalog : Catalog) (completed : List String) (P : List String → Prop)
    (hpass : ∀ pl, P pl → P (pass1 catalog completed pl)) :
    ∀ (fuel : Nat) (pl : List String), P pl → P (loopAux catalog completed fuel pl) := by
  intro fuel
  induction fuel with
  | zero => intro pl h; simpa [loopAux] using h
  | succ n ih =>
    intro pl h
    rw [loopAux]
    by_cases hfix : pass1 catalog completed pl = pl
    · simp only [hfix, if_pos rfl]
      exact h
    · simp only [if_neg hfix]
      exact ih _ (hpass pl h)

/-- Every intermediate planned state of the whole computation satisfies any
predicate stable under single admissible insertions. -/
lemma availablePlanned_invariant (catalog : Catalog) (completed : List String)
    (P : List String → Prop)
    (step : ∀ pl kc, kc ∈ catalog → P pl → kc.2.code ∉ normSet completed → kc.2.code ∉ pl →
      can_take_this_term kc.2 (normSet completed) pl = true → P (pl ++ [kc.2.code]))
    (hnil : P []) : P (availablePlanned catalog completed) :=
  loopAux_invariant catalog (normSet completed) P
    (fun pl h => pass1_invariant catalog (normSet completed) P step pl h)
    (catalog.length + 1) [] hnil

lemma availablePlanned_subset_codes (catalog : Catalog) (completed : List String) :
    ∀ x ∈ availablePlanned catalog completed, x ∈ catCodes catalog := by
  refine availablePlanned_invariant catalog completed
    (fun pl => ∀ x ∈ pl, x ∈ catCodes catalog) ?_ (by simp)
  intro pl kc hmem hP _ _ _ x hx
  rcases List.mem_append.1 hx with hx | hx
  · exact hP x hx
  · have : x = kc.2.code := by simpa using hx
    subst this
    exact List.mem_map.2 ⟨kc, hmem, rfl⟩

lemma availablePlanned_nodup (catalog : Catalog) (completed : List String) :
    (availablePlanned catalog completed).Nodup := by
  refine availablePlanned_invariant catalog completed (fun pl => pl.Nodup) ?_ (by simp)
  intro pl kc _ hP _ hnp _
  refine List.Nodup.append hP (by simp) ?_
  intro x hx
  simp only [List.mem_singleton]
  intro hxe
  subst hxe
  exact hnp hx

lemma availablePlanned_disjoint (catalog : Catalog) (completed : List String) :
    ∀ x ∈ availablePlanned catalog completed, x ∉ normSet completed := by
  refine availablePlanned_invariant catalog completed
    (fun pl => ∀ x ∈ pl, x ∉ normSet completed) ?_ (by simp)
  intro pl kc _ hP hnc _ _ x hx
  rcases List.mem_append.1 hx with hx | hx
  · exact hP x hx
  · have : x = kc.2.code := by simpa using hx
    subst this
    exact hnc

/-- When a pass leaves `planned` unchanged, no skipped course was takeable:
this is the fixed-point property at the heart of the algorithm. -/
lemma foldl_passStep_fix (completed : List String) :
    ∀ (l : List (String × Course)) (pl : List String),
      l.foldl (passStep completed) pl = pl →
      ∀ kc ∈ l, kc.2.code ∉ completed → kc.2.code ∉ pl →
        can_take_this_term kc.2 completed pl = false := by
  intro l
  induction l with
  | nil => intro pl _ kc h; simp at h
  | cons kc₀ t ih =>
    intro pl hfix kc hmem hnc hnp
    rw [List.foldl_cons] at hfix
    have hstep : passStep completed pl kc₀ = pl := by
      have e₂ := foldl_passStep_extends completed t (passStep completed pl kc₀)
      rw [hfix] at e₂
      exact (extendsTo_antisymm (passStep_extends completed pl kc₀) e₂).symm
    rcases List.mem_cons.1 hmem with rfl | hmem₂
    · rcases passStep_cases completed pl kc with hc | ⟨hc, -, -, htake⟩
      · by_contra hne
        have htake : can_take_this_term kc.2 completed pl = true := by
          revert hne
          cases can_take_this_term kc.2 completed pl <;> simp
        have hb : ¬((completed.contains kc.2.code || pl.contains kc.2.code) = true) := by
          simp only [Bool.or_eq_true, not_or]
          constructor
          · simpa using hnc
          · simpa using hnp
        have : passStep completed pl kc = pl ++ [kc.2.code] := by
          unfold passStep
          rw [if_neg hb, if_pos htake]
        rw [this] at hc
        simpa using congrArg List.length hc
      · rw [hc] at hstep
        simpa using congrArg List.length hstep
    · rw [hstep] at hfix
      exact ih pl hfix kc hmem₂ hnc hnp

lemma pass1_fix (catalog : Catalog) (completed pl : List String)
    (hfix : pass1 catalog completed pl = pl) :
    ∀ kc ∈ catalog, kc.2.code ∉ completed → kc.2.code ∉ pl →
      can_take_this_term kc.2 completed pl = false :=
  foldl_passStep_fix completed catalog pl hfix

lemma length_le_of_nodup_subset {l m : List String} (hnd : l.Nodup) (hsub : ∀ x ∈ l, x ∈ m) :
    l.length ≤ m.length :=
  (List.subperm_of_subset hnd hsub).length_le

lemma pass1_nodup (catalog : Catalog) (completed pl : List String) (h : pl.Nodup) :
    (pass1 catalog completed pl).Nodup := by
  refine pass1_invariant catalog completed (fun pl => pl.Nodup) ?_ pl h
  intro pl₂ kc _ hP _ hnp _
  refine List.Nodup.append hP (by simp) ?_
  intro x hx
  simp only [List.mem_singleton]
  intro hxe
  subst hxe
  exact hnp hx

lemma pass1_subset_codes (catalog : Catalog) (completed pl : List String)
    (h : ∀ x ∈ pl, x ∈ catCodes catalog) :
    ∀ x ∈ pass1 catalog completed pl, x ∈ catCodes catalog := by
  refine pass1_invariant catalog completed (fun pl => ∀ x ∈ pl, x ∈ catCodes catalog) ?_ pl h
  intro pl₂ kc hmem hP _ _ _ x hx
  rcases List.mem_append.1 hx with hx | hx
  · exact hP x hx
  · have : x = kc.2.code := by simpa using hx
    subst this
    exact List.mem_map.2 ⟨kc, hmem, rfl⟩

/-- With fuel exceeding the number of catalog codes not yet planned, the loop
reaches a genuine fixed point of the pass: the key termination fact. Each
productive pass strictly enlarges `planned` inside the finite code universe. -/
lemma loopAux_reaches_fix (catalog : Catalog) (completed : List String) :
    ∀ (fuel : Nat) (pl : List String), pl.Nodup → (∀ x ∈ pl, x ∈ catCodes catalog) →
      catalog.length < fuel + pl.length →
      pass1 catalog completed (loopAux catalog completed fuel pl) =
        loopAux catalog completed fuel pl := by
  intro fuel
  induction fuel with
  | zero =>
    intro pl hnd hsub hlt
    have hle : pl.length ≤ catalog.length := by
      have := length_le_of_nodup_subset hnd hsub
      simpa [catCodes] using this
    omega
  | succ n ih =>
    intro pl hnd hsub hlt
    rw [loopAux]
    by_cases hfix : pass1 catalog completed pl = pl
    · simp only [hfix, if_pos rfl]
      exact hfix
    · simp only [if_neg hfix]
      obtain ⟨t, ht⟩ := pass1_extends catalog completed pl
      have htne : t ≠ [] := by
        intro hte
        exact hfix (by simp [ht, hte])

      have hlen : pl.length + 1 ≤ (pass1 catalog completed pl).length := by
        rw [ht, List.length_append]
        have : 0 < t.length := List.length_pos.2 htne
        omega
      exact ih (pass1 catalog completed pl)
        (pass1_nodup catalog completed pl hnd)
        (pass1_subset_codes catalog completed pl hsub)
        (by omega)

/-- The computed planned set is a fixed point of one full pass. -/
lemma availablePlanned_fix (catalog : Catalog) (completed : List String) :
    pass1 catalog (normSet completed) (availablePlanned catalog completed) =
      availablePlanned catalog completed :=
  loopAux_reaches_fix catalog (normSet completed) (catalog.length + 1) []
    (by simp) (by simp) (by simp)

/-- With sufficient fuel the loop result does not depend on the fuel: the
Python `while True:` loop and the fuelled model agree. -/
lemma loopAux_fuel_irrel (catalog : Catalog) (completed : List String) :
    ∀ (fuel fuel₂ : Nat) (pl : List String), pl.Nodup → (∀ x ∈ pl, x ∈ catCodes catalog) →
      catalog.length < fuel + pl.length → catalog.length < fuel₂ + pl.length →
      loopAux catalog completed fuel pl = loopAux catalog completed fuel₂ pl := by
  intro fuel
  induction fuel with
  | zero =>
    intro fuel₂ pl hnd hsub hlt _
    have hle : pl.length ≤ catalog.length := by
      have := length_le_of_nodup_subset hnd hsub
      simpa [catCodes] using this
    omega
  | succ n ih =>
    intro fuel₂ pl hnd hsub hlt hlt₂
    cases fuel₂ with
    | zero =>
      have hle : pl.length ≤ catalog.length := by
        have := length_le_of_nodup_subset hnd hsub
        simpa [catCodes] using this
      omega
    | succ m =>
      rw [loopAux, loopAux]
      by_cases hfix : pass1 catalog completed pl = pl
      · simp [hfix]
      · simp only [if_neg hfix]
        obtain ⟨t, ht⟩ := pass1_extends catalog completed pl
        have htne : t ≠ [] := by
          intro hte
          exact hfix (by simp [ht, hte])
        have hlen : pl.length + 1 ≤ (pass1 catalog completed pl).length := by
          rw [ht, List.length_append]
          have : 0 < t.length := List.length_pos.2 htne
          omega
        exact ih m (pass1 catalog completed pl)
          (pass1_nodup catalog completed pl hnd)
          (pass1_subset_codes catalog completed pl hsub)
          (by omega) (by omega)

lemma mem_insertSorted {x y : String} {l : List String} :
    x ∈ insertSorted y l ↔ x = y ∨ x ∈ l := by
  induction l with
  | nil => simp [insertSorted]
  | cons z zs ih =>
    unfold insertSorted
    by_cases h : strLeb y z = true
    · simp [h]
    · simp only [if_neg h, List.mem_cons, ih]
      tauto

lemma mem_sortCodes {x : String} {l : List String} : x ∈ sortCodes l ↔ x ∈ l := by
  induction l with
  | nil => simp [sortCodes]
  | cons y ys ih =>
    unfold sortCodes at *
    simp only [List.foldr_cons, mem_insertSorted, ih, List.mem_cons]

lemma catFind_eq_some {catalog : Catalog} {code : String} {c : Course}
    (h : catFind catalog code = some c) :
    ∃ kc ∈ catalog, kc.1 = code ∧ kc.2 = c := by
  unfold catFind at h
  rcases ho : catalog.find? (fun kc => kc.1 == code) with - | kc₀
  · rw [ho] at h; simp at h
  · rw [ho] at h
    refine ⟨kc₀, List.mem_of_find?_eq_some ho, ?_, by simpa using h⟩
    have := List.find?_some ho
    simpa using this

lemma catFind_of_mem {catalog : Catalog} {kc : String × Course}
    (hnd : KeysNodup catalog) (hmem : kc ∈ catalog) :
    catFind catalog kc.1 = some kc.2 := by
  unfold catFind
  have hex : (catalog.find? (fun p => p.1 == kc.1)).isSome := by
    rw [List.find?_isSome]
    exact ⟨kc, hmem, by simp⟩
  rcases ho : catalog.find? (fun p => p.1 == kc.1) with - | kc₀
  · rw [ho] at hex; simp at hex
  · have hk₀ : kc₀.1 = kc.1 := by simpa using List.find?_some ho
    have hmem₀ : kc₀ ∈ catalog := List.mem_of_find?_eq_some ho
    have heq : kc₀ = kc :=
      List.inj_on_of_nodup_map hnd hmem₀ hmem hk₀
    rw [ho, heq]
    rfl

/-- Membership in the returned course list, reduced to membership of the code
in the computed planned set (for a well-formed catalog). -/
lemma mem_available_courses {catalog : Catalog} {completed : List String} {c : Course}
    (hk : KeysOk catalog) (hnd : KeysNodup catalog) :
    c ∈ available_courses catalog completed ↔
      (∃ kc ∈ catalog, kc.2 = c) ∧ c.code ∈ availablePlanned catalog completed := by
  unfold available_courses
  rw [List.mem_filterMap]
  constructor
  · rintro ⟨code, hcode, hfind⟩
    obtain ⟨kc, hmem, hk₁, hk₂⟩ := catFind_eq_some hfind
    have hcc : c.code = code := by
      rw [← hk₂, ← hk₁]
      exact (hk kc hmem).symm
    exact ⟨⟨kc, hmem, hk₂⟩, by rw [hcc]; exact mem_sortCodes.1 hcode⟩
  · rintro ⟨⟨kc, hmem, hk₂⟩, hcode⟩
    refine ⟨c.code, mem_sortCodes.2 hcode, ?_⟩
    have h₁ : kc.1 = c.code := by rw [hk kc hmem, hk₂]
    have := catFind_of_mem hnd hmem
    rw [h₁, hk₂] at this
    exact this

/-- The codes of the returned course list coincide (as a set) with the
computed planned set. -/
lemma codes_available_courses {catalog : Catalog} {completed : List String}
    (hk : KeysOk catalog) (hnd : KeysNodup catalog) :
    ∀ x, x ∈ (available_courses catalog completed).map (fun c => c.code) ↔
      x ∈ availablePlanned catalog completed := by
  intro x
  constructor
  · intro hx
    obtain ⟨c, hc, rfl⟩ := List.mem_map.1 hx
    exact ((mem_available_courses hk hnd).1 hc).2
  · intro hx
    have hcode := availablePlanned_subset_codes catalog completed x hx
    obtain ⟨kc, hmem, hcc⟩ := List.mem_map.1 hcode
    refine List.mem_map.2 ⟨kc.2, ?_, hcc⟩
    exact (mem_available_courses hk hnd).2 ⟨⟨kc, hmem, rfl⟩, by rw [hcc]; exact hx⟩

/-- Satisfaction characterization of `can_take_this_term`. -/
lemma can_take_iff {c : Course} {comp pl : List String} :
    can_take_this_term c comp pl = true ↔
      (∀ g ∈ c.prereq_groups, ∃ x ∈ g, x ∈ comp) ∧
      (∀ g ∈ c.concurrent_groups, ∃ x ∈ g, x ∈ comp ∨ x ∈ pl) := by
  unfold can_take_this_term hits
  simp [List.all_eq_true, List.any_eq_true, List.mem_append]

/-- Takeability is monotone: enlarging the completed set (and allowing the
planned set to grow into `completed₂ ∪ planned₂`) preserves it. -/
lemma can_take_mono {c : Course} {comp comp₂ pl pl₂ : List String}
    (hc : ∀ x ∈ comp, x ∈ comp₂) (hp : ∀ x ∈ pl, x ∈ comp₂ ∨ x ∈ pl₂)
    (h : can_take_this_term c comp pl = true) :
    can_take_this_term c comp₂ pl₂ = true := by
  rw [can_take_iff] at h ⊢
  refine ⟨fun g hg => ?_, fun g hg => ?_⟩
  · obtain ⟨x, hxg, hx⟩ := h.1 g hg
    exact ⟨x, hxg, hc x hx⟩
  · obtain ⟨x, hxg, hx⟩ := h.2 g hg
    rcases hx with hx | hx
    · exact ⟨x, hxg, Or.inl (hc x hx)⟩
    · exact ⟨x, hxg, hp x hx⟩

/-- Takeability only depends on the planned set up to membership. -/
lemma can_take_congr {c : Course} {comp pl pl₂ : List String}
    (hp : ∀ x, x ∈ pl ↔ x ∈ pl₂) :
    can_take_this_term c comp pl = can_take_this_term c comp pl₂ := by
  by_cases h : can_take_this_term c comp pl = true
  · rw [h]
    exact (can_take_mono (fun x hx => hx) (fun x hx => Or.inr ((hp x).1 hx)) h).symm
  · by_cases h₂ : can_take_this_term c comp pl₂ = true
    · exact absurd (can_take_mono (fun x hx => hx) (fun x hx => Or.inr ((hp x).2 hx)) h₂) h
    · rw [Bool.not_eq_true] at h h₂
      rw [h, h₂]

/-- Every code of an admissible chain ends up in the computed planned set. -/
lemma chainOk_subset_planned (catalog : Catalog) (completed : List String) :
    ∀ (chain prev : List String),
      (∀ x ∈ prev, x ∈ availablePlanned catalog completed) →
      chainOk catalog (normSet completed) prev chain = true →
      ∀ s ∈ chain, s ∈ availablePlanned catalog completed := by
  intro chain
  induction chain with
  | nil => intro prev _ _ s hs; simp at hs
  | cons s rest ih =>
    intro prev hprev hchain t ht
    rw [chainOk] at hchain
    simp only [Bool.and_eq_true, List.any_eq_true, Bool.not_eq_true'] at hchain
    obtain ⟨⟨⟨kc, hmem, hkc⟩, hsnc⟩, hrest⟩ := hchain
    simp only [Bool.and_eq_true, beq_iff_eq] at hkc
    obtain ⟨hcode, htake⟩ := hkc
    have hsnc₂ : s ∉ normSet completed := by simpa using hsnc
    have hsP : s ∈ availablePlanned catalog completed := by
      by_contra hsp
      have hfalse := pass1_fix catalog (normSet completed) _
        (availablePlanned_fix catalog completed) kc hmem
        (by rw [hcode]; exact hsnc₂) (by rw [hcode]; exact hsp)
      have htrue : can_take_this_term kc.2 (normSet completed)
          (availablePlanned catalog completed) = true :=
        can_take_mono (fun x hx => hx) (fun x hx => Or.inr (hprev x hx)) htake
      rw [htrue] at hfalse
      cases hfalse
    rcases List.mem_cons.1 ht with rfl | ht₂
    · exact hsP
    · refine ih (prev ++ [s]) ?_ hrest t ht₂
      intro x hx
      rcases List.mem_append.1 hx with hx | hx
      · exact hprev x hx
      · have : x = s := by simpa using hx
        subst this
        exact hsP

/-- C1: `available_courses` returns a fixed point — for every catalog and
completed set, no catalog course outside the returned list (and whose code is
outside the normalized completed set) has all of its prerequisite groups
intersecting the normalized completed set and all of its co-requisite groups
intersecting the union of the normalized completed set with the returned
courses' codes (this conjunction is exactly `can_take_this_term`). Stated for
well-formed catalogs (distinct keys matching the stored course codes, as the
Python scraper and JSON loader build them). -/
theorem available_courses_fixed_point (catalog : Catalog) (completed : List String)
    (hk : KeysOk catalog) (hnd : KeysNodup catalog) (kc : String × Course)
    (hmem : kc ∈ catalog)
    (hnc : kc.2.code ∉ normSet completed)
    (hout : kc.2 ∉ available_courses catalog completed) :
    can_take_this_term kc.2 (normSet completed)
      ((available_courses catalog completed).map (fun c => c.code)) = false := by
  have hpl : kc.2.code ∉ availablePlanned catalog completed := by
    intro hin
    exact hout ((mem_available_courses hk hnd).2 ⟨⟨kc, hmem, rfl⟩, hin⟩)
  have h := pass1_fix catalog (normSet completed) _
    (availablePlanned_fix catalog completed) kc hmem hnc hpl
  rw [can_take_congr (fun x => codes_available_courses hk hnd x)]
  exact h

theorem available_courses_fixed_point_witness :
    can_take_this_term c132 (normSet [])
      ((available_courses scenarioCatalog []).map (fun c => c.code)) = false :=
  available_courses_fixed_point scenarioCatalog [] (by decide) (by decide)
    ("CMPSC 132", c132) (by decide) (by decide) (by decide)

/-- C2 counterexample: the claim fails on a pure co-requisite cycle. For the
two-course cycle catalog and the empty completed set, the set
`S = {PHYS 211, PHYS 212}` satisfies every hypothesis of the claim (S consists
of catalog courses, is disjoint from the normalized completed set, every
prerequisite group of its members intersects the completed set vacuously, and
every co-requisite group intersects `completed ∪ S`), yet PHYS 211 is not in
the returned set: `available_courses` computes the least fixed point, which
never starts a pure cycle. -/
theorem available_courses_not_maximal :
    (∀ s ∈ ["PHYS 211", "PHYS 212"], s ∈ catCodes cycleCatalog) ∧
    (∀ s ∈ ["PHYS 211", "PHYS 212"], s ∉ normSet []) ∧
    (∀ kc ∈ cycleCatalog, kc.2.code ∈ ["PHYS 211", "PHYS 212"] →
      can_take_this_term kc.2 (normSet []) ["PHYS 211", "PHYS 212"] = true) ∧
    "PHYS 211" ∉ (available_courses cycleCatalog []).map (fun c => c.code) := by
  decide

/-- C2 (amended): `available_courses` contains every course reachable by an
admissible chain — a sequence of catalog courses, each outside the normalized
completed set, whose prerequisite groups intersect the completed set and whose
co-requisite groups intersect the union of the completed set with the earlier
members of the chain. (Courses supported only by a pure co-requisite cycle
admit no such chain and are not included, per the counterexample.) -/
theorem available_courses_contains_chains (catalog : Catalog) (completed : List String)
    (hk : KeysOk catalog) (hnd : KeysNodup catalog) (chain : List String)
    (hchain : chainOk catalog (normSet completed) [] chain = true) :
    ∀ s ∈ chain, s ∈ (available_courses catalog completed).map (fun c => c.code) := by
  intro s hs
  rw [codes_available_courses hk hnd]
  exact chainOk_subset_planned catalog completed chain [] (by simp) hchain s hs

theorem available_courses_contains_chains_witness :
    "MATH 141" ∈ (available_courses scenarioCatalog []).map (fun c => c.code) :=
  available_courses_contains_chains scenarioCatalog [] (by decide) (by decide)
    ["CMPSC 131", "MATH 140", "MATH 141"] (by decide) "MATH 141" (by decide)

/-- C3: `available_courses` is monotone non-decreasing in the completed set,
in the reachable-set sense: when the normalized completed set grows from `A`
to `B`, every course available under `A` is either still available under `B`
or already has its code in (normalized) `B` — the reachable set
`completed ∪ available` never shrinks when recomputed from scratch. -/
theorem available_courses_monotone (catalog : Catalog) (A B : List String)
    (hk : KeysOk catalog) (hnd : KeysNodup catalog)
    (hsub : ∀ x ∈ normSet A, x ∈ normSet B) :
    ∀ c ∈ available_courses catalog A,
      c ∈ available_courses catalog B ∨ c.code ∈ normSet B := by
  have key : ∀ x ∈ availablePlanned catalog A,
      x ∈ normSet B ∨ x ∈ availablePlanned catalog B := by
    refine availablePlanned_invariant catalog A
      (fun pl => ∀ x ∈ pl, x ∈ normSet B ∨ x ∈ availablePlanned catalog B) ?_ (by simp)
    intro pl kc hmem hP _ _ htake x hx
    rcases List.mem_append.1 hx with hx | hx
    · exact hP x hx
    · have hxe : x = kc.2.code := by simpa using hx
      subst hxe
      by_contra hcon
      rw [not_or] at hcon
      have hfalse := pass1_fix catalog (normSet B) _
        (availablePlanned_fix catalog B) kc hmem hcon.1 hcon.2
      have htrue : can_take_this_term kc.2 (normSet B)
          (availablePlanned catalog B) = true :=
        can_take_mono hsub (fun y hy => hP y hy) htake
      rw [htrue] at hfalse
      cases hfalse
  intro c hc
  obtain ⟨⟨kc, hmem, hkc⟩, hcode⟩ := (mem_available_courses hk hnd).1 hc
  rcases key c.code hcode with h | h
  · exact Or.inr h
  · exact Or.inl ((mem_available_courses hk hnd).2 ⟨⟨kc, hmem, hkc⟩, h⟩)

theorem available_courses_monotone_witness :
    c131 ∈ available_courses scenarioCatalog ["MATH 140"] ∨
      c131.code ∈ normSet ["MATH 140"] :=
  available_courses_monotone scenarioCatalog [] ["MATH 140"] (by decide) (by decide)
    (by decide) c131 (by decide)

/-- C4: scenario — for the four-course catalog (CMPSC 131 no requirements,
CMPSC 132 prerequisite {CMPSC 131}, MATH 141 co-requisite {MATH 140},
MATH 140 no requirements) and the empty completed set, `available_courses`
returns exactly [CMPSC 131, MATH 140, MATH 141] in normalized-code order:
MATH 140 enters the planned set and unlocks MATH 141 in a later pass, while
CMPSC 132 is excluded because its hard prerequisite is unmet. -/
theorem available_courses_scenario :
    available_courses scenarioCatalog [] = [c131, m140, m141] := by
  decide

/-- C5: the fixed-point loop of `available_courses` terminates within
`catalog.length + 1` passes — any fuel of at least that many passes yields
the same planned set, and that planned set is a genuine fixed point of one
full pass (so the unbounded Python `while True:` loop exits). -/
theorem available_courses_terminates (catalog : Catalog) (completed : List String)
    (fuel : Nat) (hfuel : catalog.length + 1 ≤ fuel) :
    loopAux catalog (normSet completed) fuel [] = availablePlanned catalog completed ∧
    pass1 catalog (normSet completed) (availablePlanned catalog completed) =
      availablePlanned catalog completed := by
  constructor
  · exact loopAux_fuel_irrel catalog (normSet completed) fuel (catalog.length + 1) []
      (by simp) (by simp) (by omega) (by omega)
  · exact availablePlanned_fix catalog completed

theorem available_courses_terminates_witness :
    loopAux scenarioCatalog (normSet []) 10 [] = availablePlanned scenarioCatalog [] ∧
    pass1 scenarioCatalog (normSet []) (availablePlanned scenarioCatalog []) =
      availablePlanned scenarioCatalog [] :=
  available_courses_terminates scenarioCatalog [] 10 (by decide)

lemma endsWs_cons {c : Char} {t : List Char} (h : t ≠ []) : endsWs (c :: t) = endsWs t := by
  cases t with
  | nil => exact absurd rfl h
  | cons d t₂ => rfl

lemma toNat_ofNat_lt {n : Nat} (h : n < 55296) : (Char.ofNat n).toNat = n := by
  rw [Char.ofNat, dif_pos (Or.inl h)]
  simp [Char.ofNatAux, Char.toNat, UInt32.toNat]

lemma up_toNat_of_lower {c : Char} (h : 97 ≤ c.toNat ∧ c.toNat ≤ 122) :
    (up c).toNat = c.toNat - 32 := by
  unfold up Char.toUpper
  simp only [if_pos h]
  exact toNat_ofNat_lt (by omega)

lemma up_eq_of_not_lower {c : Char} (h : ¬(97 ≤ c.toNat ∧ c.toNat ≤ 122)) : up c = c := by
  unfold up Char.toUpper
  exact if_neg h

lemma up_up (c : Char) : up (up c) = up c := by
  by_cases h : 97 ≤ c.toNat ∧ c.toNat ≤ 122
  · have ht := up_toNat_of_lower h
    exact up_eq_of_not_lower (by omega)
  · rw [up_eq_of_not_lower h]
    exact up_eq_of_not_lower h

lemma isWs_up (c : Char) : isWs (up c) = isWs c := by
  by_cases h : 97 ≤ c.toNat ∧ c.toNat ≤ 122
  · have ht := up_toNat_of_lower h
    have h₁ : isWs (up c) = false := by
      simp only [isWs, Bool.or_eq_false_iff, decide_eq_false_iff_not]
      omega
    have h₂ : isWs c = false := by
      simp only [isWs, Bool.or_eq_false_iff, decide_eq_false_iff_not]
      omega
    rw [h₁, h₂]
  · rw [up_eq_of_not_lower h]

lemma isWs_repNbsp (c : Char) : isWs (repNbsp c) = isWs c := by
  unfold repNbsp
  by_cases h : c.toNat = 160
  · rw [if_pos h]
    simp only [isWs, h]
    decide
  · rw [if_neg h]

lemma repNbsp_toNat_ne (c : Char) : (repNbsp c).toNat ≠ 160 := by
  unfold repNbsp
  by_cases h : c.toNat = 160
  · rw [if_pos h]
    decide
  · rw [if_neg h]
    exact h

lemma repNbsp_of_ne {c : Char} (h : c.toNat ≠ 160) : repNbsp c = c := by
  unfold repNbsp
  rw [if_neg h]

lemma up_space : up ' ' = ' ' := by decide

lemma repNbsp_space : repNbsp ' ' = ' ' := by decide

lemma collapseAux_idem : ∀ (m : List Char) (b : Bool),
    collapseAux b (collapseAux b m) = collapseAux b m := by
  intro m
  induction m with
  | nil => intro b; rfl
  | cons c t ih =>
    intro b
    by_cases hc : isWs c = true
    · cases b with
      | true =>
        rw [collapseAux, if_pos hc, if_pos rfl]
        exact ih true
      | false =>
        rw [collapseAux, if_pos hc, if_neg (by simp)]
        rw [collapseAux, if_pos (show isWs ' ' = true by decide), if_neg (by simp)]
        rw [ih true]
    · rw [collapseAux, if_neg hc]
      rw [collapseAux, if_neg hc]
      rw [ih false]

lemma mem_collapseAux : ∀ (m : List Char) (b : Bool) (x : Char),
    x ∈ collapseAux b m → x = ' ' ∨ x ∈ m := by
  intro m
  induction m with
  | nil => intro b x h; simp [collapseAux] at h
  | cons c t ih =>
    intro b x h
    by_cases hc : isWs c = true
    · cases b with
      | true =>
        rw [collapseAux, if_pos hc, if_pos rfl] at h
        rcases ih true x h with h | h
        · exact Or.inl h
        · exact Or.inr (List.mem_cons_of_mem _ h)
      | false =>
        rw [collapseAux, if_pos hc, if_neg (by simp)] at h
        rcases List.mem_cons.1 h with rfl | h
        · exact Or.inl rfl
        · rcases ih true x h with h | h
          · exact Or.inl h
          · exact Or.inr (List.mem_cons_of_mem _ h)
    · rw [collapseAux, if_neg hc] at h
      rcases List.mem_cons.1 h with rfl | h
      · exact Or.inr (List.mem_cons_self _ _)
      · rcases ih false x h with h | h
        · exact Or.inl h
        · exact Or.inr (List.mem_cons_of_mem _ h)

lemma collapseAux_eq_nil : ∀ (m : List Char) (b : Bool),
    collapseAux b m = [] → ∀ c ∈ m, isWs c = true := by
  intro m
  induction m with
  | nil => intro b _ c hc; simp at hc
  | cons c t ih =>
    intro b h x hx
    by_cases hc : isWs c = true
    · cases b with
      | true =>
        rw [collapseAux, if_pos hc, if_pos rfl] at h
        rcases List.mem_cons.1 hx with rfl | hx
        · exact hc
        · exact ih true h x hx
      | false =>
        rw [collapseAux, if_pos hc, if_neg (by simp)] at h
        simp at h
    · rw [collapseAux, if_neg hc] at h
      simp at h

lemma endsWs_all_ws : ∀ (t : List Char), t ≠ [] → (∀ c ∈ t, isWs c = true) →
    endsWs t = true := by
  intro t
  induction t with
  | nil => intro h; exact absurd rfl h
  | cons c t ih =>
    intro _ hall
    cases t with
    | nil => exact hall c (by simp)
    | cons d t₂ =>
      rw [endsWs_cons (by simp)]
      exact ih (by simp) (fun x hx => hall x (List.mem_cons_of_mem _ hx))

lemma endsWs_collapseAux : ∀ (m : List Char) (b : Bool), endsWs m = false →
    endsWs (collapseAux b m) = false := by
  intro m
  induction m with
  | nil => intro b _; rfl
  | cons c t ih =>
    intro b hm
    cases t with
    | nil =>
      have hc : isWs c = false := hm
      rw [collapseAux, if_neg (by simp [hc])]
      exact hm
    | cons d t₂ =>
      rw [endsWs_cons (by simp)] at hm
      by_cases hc : isWs c = true
      · cases b with
        | true =>
          rw [collapseAux, if_pos hc, if_pos rfl]
          exact ih true hm
        | false =>
          rw [collapseAux, if_pos hc, if_neg (by simp)]
          rcases hX : collapseAux true (d :: t₂) with - | ⟨y, ys⟩
          · have hall := collapseAux_eq_nil (d :: t₂) true hX
            have := endsWs_all_ws (d :: t₂) (by simp) hall
            rw [hm] at this
            cases this
          · rw [endsWs_cons (by simp)]
            rw [← hX]
            exact ih true hm
      · rw [collapseAux, if_neg hc]
        rcases hX : collapseAux false (d :: t₂) with - | ⟨y, ys⟩
        · exact eq_false_of_ne_true hc
        · rw [endsWs_cons (by simp)]
          rw [← hX]
          exact ih false hm

lemma headWs_collapseAux {m : List Char} (h : headWs m = false) :
    headWs (collapseWs m) = false := by
  cases m with
  | nil => rfl
  | cons c t =>
    have hc : isWs c = false := h
    unfold collapseWs
    rw [collapseAux, if_neg (by simp [hc])]
    exact hc

lemma headWs_dropWhile (l : List Char) : headWs (l.dropWhile isWs) = false := by
  induction l with
  | nil => rfl
  | cons c t ih =>
    by_cases hc : isWs c = true
    · rw [List.dropWhile_cons, if_pos hc]
      exact ih
    · rw [List.dropWhile_cons, if_neg hc]
      exact eq_false_of_ne_true hc

lemma endsWs_dropWhile {l : List Char} (h : endsWs l = false) :
    endsWs (l.dropWhile isWs) = false := by
  induction l with
  | nil => exact h
  | cons c t ih =>
    by_cases hc : isWs c = true
    · rw [List.dropWhile_cons, if_pos hc]
      cases t with
      | nil => rfl
      | cons d t₂ =>
        rw [endsWs_cons (by simp)] at h
        exact ih h
    · rw [List.dropWhile_cons, if_neg hc]
      exact h

lemma headWs_append {xs ys : List Char} (h : xs ≠ []) : headWs (xs ++ ys) = headWs xs := by
  cases xs with
  | nil => exact absurd rfl h
  | cons c t => rfl

lemma headWs_reverse (l : List Char) : headWs l.reverse = endsWs l := by
  induction l with
  | nil => rfl
  | cons c t ih =>
    cases t with
    | nil => rfl
    | cons d t₂ =>
      rw [endsWs_cons (by simp)]
      rw [List.reverse_cons, headWs_append (by simp)]
      exact ih

lemma dropWhile_of_headWs {l : List Char} (h : headWs l = false) :
    l.dropWhile isWs = l := by
  cases l with
  | nil => rfl
  | cons c t =>
    rw [List.dropWhile_cons, if_neg (by simp [show isWs c = false from h])]

lemma stripWs_of_trimmed {l : List Char} (h₁ : headWs l = false) (h₂ : endsWs l = false) :
    stripWs l = l := by
  unfold stripWs
  rw [dropWhile_of_headWs h₁]
  rw [dropWhile_of_headWs (by rw [headWs_reverse]; exact h₂)]
  exact List.reverse_reverse l

lemma headWs_stripWs (l : List Char) : headWs (stripWs l) = false := by
  unfold stripWs
  rw [headWs_reverse]
  exact endsWs_dropWhile (by rw [← headWs_reverse, List.reverse_reverse]; exact headWs_dropWhile l)

lemma endsWs_stripWs (l : List Char) : endsWs (stripWs l) = false := by
  unfold stripWs
  rw [← headWs_reverse, List.reverse_reverse]
  exact headWs_dropWhile _

lemma headWs_map {f : Char → Char} (hf : ∀ c, isWs (f c) = isWs c) (l : List Char) :
    headWs (l.map f) = headWs l := by
  cases l with
  | nil => rfl
  | cons c t => exact hf c

lemma endsWs_map {f : Char → Char} (hf : ∀ c, isWs (f c) = isWs c) :
    ∀ (l : List Char), endsWs (l.map f) = endsWs l := by
  intro l
  induction l with
  | nil => rfl
  | cons c t ih =>
    cases t with
    | nil => exact hf c
    | cons d t₂ =>
      rw [List.map_cons, endsWs_cons (by simp), endsWs_cons (by simp)]
      exact ih

lemma map_id_of_fixed {f : Char → Char} : ∀ (l : List Char), (∀ c ∈ l, f c = c) →
    l.map f = l := by
  intro l
  induction l with
  | nil => intro _; rfl
  | cons c t ih =>
    intro h
    rw [List.map_cons, h c (by simp), ih (fun x hx => h x (List.mem_cons_of_mem _ hx))]

lemma headWs_normChars (l : List Char) : headWs (normChars l) = false := by
  unfold normChars
  refine headWs_collapseAux ?_
  rw [headWs_map isWs_repNbsp, headWs_map isWs_up]
  exact headWs_stripWs l

lemma endsWs_normChars (l : List Char) : endsWs (normChars l) = false := by
  unfold normChars collapseWs
  refine endsWs_collapseAux _ false ?_
  rw [endsWs_map isWs_repNbsp, endsWs_map isWs_up]
  exact endsWs_stripWs l

lemma normChars_chars_fixed {l : List Char} {c : Char} (h : c ∈ normChars l) :
    up c = c ∧ repNbsp c = c := by
  unfold normChars collapseWs at h
  rcases mem_collapseAux _ false c h with rfl | h
  · exact ⟨up_space, repNbsp_space⟩
  · obtain ⟨d, hd, rfl⟩ := List.mem_map.1 h
    constructor
    · by_cases hn : d.toNat = 160
      · rw [repNbsp, if_pos hn]
        exact up_space
      · rw [repNbsp_of_ne hn]
        obtain ⟨e, -, rfl⟩ := List.mem_map.1 hd
        exact up_up e
    · exact repNbsp_of_ne (repNbsp_toNat_ne d)

lemma normChars_idem (l : List Char) : normChars (normChars l) = normChars l := by
  conv_lhs => rw [normChars]
  rw [stripWs_of_trimmed (headWs_normChars l) (endsWs_normChars l)]
  rw [map_id_of_fixed _ (fun c hc => (normChars_chars_fixed hc).1)]
  rw [map_id_of_fixed _ (fun c hc => (normChars_chars_fixed hc).2)]
  conv_lhs => rw [normChars]
  exact collapseAux_idem _ false

/-- Normalization is idempotent (the spec's stated testable property, and the
fact the graph builders rely on when they re-normalize already normalized
codes). -/
lemma normalize_idem (s : String) : _normalize_code (_normalize_code s) = _normalize_code s := by
  unfold _normalize_code
  exact congrArg String.mk (normChars_idem s.data)

/-- Generic preservation of a predicate along a left fold. -/
lemma foldlPreserve {α β : Type _} (P : β → Prop) (f : β → α → β) :
    ∀ (l : List α) (b : β), (∀ b₂ a, a ∈ l → P b₂ → P (f b₂ a)) → P b → P (l.foldl f b) := by
  intro l
  induction l with
  | nil => intro b _ h; simpa using h
  | cons a t ih =>
    intro b hstep h
    rw [List.foldl_cons]
    exact ih _ (fun b₂ x hx => hstep b₂ x (List.mem_cons_of_mem _ hx))
      (hstep b a (List.mem_cons_self _ _) h)

lemma NExt_rfl {st : GState} : NExt st st := ⟨[], by simp⟩

lemma NExt_trans {a b c : GState} (h₁ : NExt a b) (h₂ : NExt b c) : NExt a c := by
  obtain ⟨t₁, ht₁⟩ := h₁
  obtain ⟨t₂, ht₂⟩ := h₂
  exact ⟨t₁ ++ t₂, by rw [ht₂, ht₁, List.append_assoc]⟩

lemma nodeIds_mono {st₀ st : GState} (h : NExt st₀ st) :
    ∀ x ∈ nodeIds st₀, x ∈ nodeIds st := by
  obtain ⟨t, ht⟩ := h
  intro x hx
  unfold nodeIds at *
  rw [ht, List.map_append]
  exact List.mem_append_left _ hx

lemma edgesClosed_of_next {st st₂ : GState} (h : NExt st st₂) (he : st₂.edges = st.edges)
    (hc : EdgesClosed st) : EdgesClosed st₂ := by
  intro e hmem
  rw [he] at hmem
  obtain ⟨h₁, h₂⟩ := hc e hmem
  exact ⟨nodeIds_mono h _ h₁, nodeIds_mono h _ h₂⟩

lemma addNodeP_edges (catalog : Catalog) (root : String) (compN availN : List String)
    (code : String) (st : GState) :
    (addNodeP catalog root compN availN code st).edges = st.edges := by
  unfold addNodeP
  dsimp only
  split <;> rfl

lemma addNodeP_next (catalog : Catalog) (root : String) (compN availN : List String)
    (code : String) (st : GState) :
    NExt st (addNodeP catalog root compN availN code st) := by
  unfold addNodeP
  dsimp only
  split
  · exact NExt_rfl
  · exact ⟨_, rfl⟩

lemma addNodeP_mem (catalog : Catalog) (root : String) (compN availN : List String)
    (code : String) (st : GState) :
    _normalize_code code ∈ nodeIds (addNodeP catalog root compN availN code st) := by
  unfold addNodeP
  dsimp only
  split
  · rename_i h
    obtain ⟨n, hn, hid⟩ := List.any_eq_true.1 h
    have : n.id = _normalize_code code := by simpa using hid
    exact List.mem_map.2 ⟨n, hn, this⟩
  · unfold nodeIds
    simp

lemma addNodeF_edges (catalog : Catalog) (compN availN : List String)
    (code : String) (st : GState) :
    (addNodeF catalog compN availN code st).edges = st.edges := by
  unfold addNodeF
  dsimp only
  split <;> rfl

lemma addNodeF_next (catalog : Catalog) (compN availN : List String)
    (code : String) (st : GState) :
    NExt st (addNodeF catalog compN availN code st) := by
  unfold addNodeF
  dsimp only
  split
  · exact NExt_rfl
  · exact ⟨_, rfl⟩

lemma addNodeF_mem (catalog : Catalog) (compN availN : List String)
    (code : String) (st : GState) :
    _normalize_code code ∈ nodeIds (addNodeF catalog compN availN code st) := by
  unfold addNodeF
  dsimp only
  split
  · rename_i h
    obtain ⟨n, hn, hid⟩ := List.any_eq_true.1 h
    have : n.id = _normalize_code code := by simpa using hid
    exact List.mem_map.2 ⟨n, hn, this⟩
  · unfold nodeIds
    simp

lemma dfsEdges_next (catalog : Catalog) (root : String) (compN availN : List String)
    (rec_ : String → GState → GState)
    (Hrec : ∀ code st, NExt st (rec_ code st))
    (code_n lbl : String) (groups : List (List String)) (st : GState) :
    NExt st (dfsEdges (addNodeP catalog root compN availN) rec_ code_n lbl groups st) := by
  unfold dfsEdges
  refine foldlPreserve (fun st₂ => NExt st st₂) _ groups st ?_ NExt_rfl
  intro stg g _ hP
  refine foldlPreserve (fun st₂ => NExt st st₂) _ g stg ?_ hP
  intro stp pre _ hP₂
  set pre_n := _normalize_code pre with hpre
  set st₁ := addNodeP catalog root compN availN pre_n stp with hst₁
  set st₂ : GState := { st₁ with
    edges := st₁.edges ++
      [{ id := "e" ++ toString st₁.edgeId, efrom := pre_n, eto := code_n, label := lbl }]
    , edgeId := st₁.edgeId + 1 } with hst₂
  have h₁ : NExt stp st₁ := addNodeP_next catalog root compN availN pre_n stp
  have h₂ : NExt st₁ st₂ := ⟨[], by simp [hst₂]⟩
  exact NExt_trans hP₂ (NExt_trans h₁ (NExt_trans h₂ (Hrec pre_n st₂)))

lemma dfsEdges_pres (catalog : Catalog) (root : String) (compN availN : List String)
    (rec_ : String → GState → GState)
    (Hrec : ∀ code st, NExt st (rec_ code st) ∧
      (EdgesClosed st → EdgesClosed (rec_ code st)))
    (code_n lbl : String) (groups : List (List String)) (st : GState)
    (hc : EdgesClosed st) (hm : code_n ∈ nodeIds st) :
    NExt st (dfsEdges (addNodeP catalog root compN availN) rec_ code_n lbl groups st) ∧
    EdgesClosed (dfsEdges (addNodeP catalog root compN availN) rec_ code_n lbl groups st) ∧
    code_n ∈ nodeIds (dfsEdges (addNodeP catalog root compN availN) rec_ code_n lbl groups st) := by
  unfold dfsEdges
  refine foldlPreserve
    (fun st₂ => NExt st st₂ ∧ EdgesClosed st₂ ∧ code_n ∈ nodeIds st₂) _ groups
    st ?_ ⟨NExt_rfl, hc, hm⟩
  intro stg g _ hP
  refine foldlPreserve
    (fun st₂ => NExt st st₂ ∧ EdgesClosed st₂ ∧ code_n ∈ nodeIds st₂) _ g
    stg ?_ hP
  intro stp pre _ hP₂
  obtain ⟨hext, hcl, hmem⟩ := hP₂
  set pre_n := _normalize_code pre with hpre
  set st₁ := addNodeP catalog root compN availN pre_n stp with hst₁
  have hext₁ : NExt stp st₁ := addNodeP_next catalog root compN availN pre_n stp
  have hcl₁ : EdgesClosed st₁ :=
    edgesClosed_of_next hext₁ (addNodeP_edges catalog root compN availN pre_n stp) hcl
  have hmem₁ : code_n ∈ nodeIds st₁ := nodeIds_mono hext₁ _ hmem
  have hpre₁ : pre_n ∈ nodeIds st₁ := by
    have := addNodeP_mem catalog root compN availN pre_n stp
    rwa [hpre, normalize_idem] at this
  set st₂ : GState := { st₁ with
    edges := st₁.edges ++
      [{ id := "e" ++ toString st₁.edgeId, efrom := pre_n, eto := code_n, label := lbl }]
    , edgeId := st₁.edgeId + 1 } with hst₂
  have hids₂ : nodeIds st₂ = nodeIds st₁ := rfl
  have hext₂ : NExt st₁ st₂ := ⟨[], by simp [hst₂]⟩
  have hcl₂ : EdgesClosed st₂ := by
    intro e hmeme
    rw [hst₂] at hmeme
    rcases List.mem_append.1 hmeme with hmeme | hmeme
    · obtain ⟨h₁, h₂⟩ := hcl₁ e hmeme
      rw [hids₂]
      exact ⟨h₁, h₂⟩
    · have : e = { id := "e" ++ toString st₁.edgeId, efrom := pre_n, eto := code_n, label := lbl } := by
        simpa using hmeme
      subst this
      rw [hids₂]
      exact ⟨hpre₁, hmem₁⟩
  obtain ⟨hext₃, hcl₃⟩ := Hrec pre_n st₂
  refine ⟨NExt_trans hext (NExt_trans hext₁ (NExt_trans hext₂ hext₃)), hcl₃ hcl₂, ?_⟩
  exact nodeIds_mono hext₃ _ (nodeIds_mono hext₂ _ hmem₁)

lemma dfsBody_pres (catalog : Catalog) (root : String) (compN availN : List String)
    (rec_ : String → GState → GState)
    (Hrec : ∀ code st, NExt st (rec_ code st) ∧
      (EdgesClosed st → EdgesClosed (rec_ code st)))
    (code : String) (st : GState) :
    NExt st (dfsBody catalog root compN availN rec_ code st) ∧
    (EdgesClosed st → EdgesClosed (dfsBody catalog root compN availN rec_ code st)) := by
  unfold dfsBody
  set code_n := _normalize_code code with hcode
  by_cases hv : st.visited.contains code_n = true
  · rw [if_pos hv]
    exact ⟨NExt_rfl, fun h => h⟩
  · rw [if_neg hv]
    set st₁ : GState := { st with visited := st.visited ++ [code_n] } with hst₁
    have hext₁ : NExt st st₁ := ⟨[], by simp [hst₁]⟩
    set st₂ := addNodeP catalog root compN availN code_n st₁ with hst₂
    have hext₂ : NExt st₁ st₂ := addNodeP_next catalog root compN availN code_n st₁
    have hmem₂ : code_n ∈ nodeIds st₂ := by
      have := addNodeP_mem catalog root compN availN code_n st₁
      rwa [hcode, normalize_idem] at this
    rcases hfind : catFind catalog code_n with - | course
    · refine ⟨NExt_trans hext₁ hext₂, fun hc => ?_⟩
      have hc₁ : EdgesClosed st₁ :=
        edgesClosed_of_next hext₁ rfl hc
      exact edgesClosed_of_next hext₂ (addNodeP_edges catalog root compN availN code_n st₁) hc₁
    · constructor
      · have h₃ := dfsEdges_next catalog root compN availN rec_
          (fun code st => (Hrec code st).1) code_n "prereq" course.prereq_groups st₂
        have h₄ := dfsEdges_next catalog root compN availN rec_
          (fun code st => (Hrec code st).1) code_n "concurrent" course.concurrent_groups
          (dfsEdges (addNodeP catalog root compN availN) rec_ code_n "prereq"
            course.prereq_groups st₂)
        exact NExt_trans hext₁ (NExt_trans hext₂ (NExt_trans h₃ h₄))
      · intro hc
        have hc₁ : EdgesClosed st₁ := edgesClosed_of_next hext₁ rfl hc
        have hc₂ : EdgesClosed st₂ :=
          edgesClosed_of_next hext₂ (addNodeP_edges catalog root compN availN code_n st₁) hc₁
        obtain ⟨-, hc₃, hm₃⟩ := dfsEdges_pres catalog root compN availN rec_ Hrec
          code_n "prereq" course.prereq_groups st₂ hc₂ hmem₂
        obtain ⟨-, hc₄, -⟩ := dfsEdges_pres catalog root compN availN rec_ Hrec
          code_n "concurrent" course.concurrent_groups _ hc₃ hm₃
        exact hc₄

/-- The recursive DFS preserves node extension and edge closedness. -/
lemma dfs_pres (catalog : Catalog) (root : String) (compN availN : List String) :
    ∀ (fuel : Nat) (code : String) (st : GState),
      NExt st (dfs catalog root compN availN fuel code st) ∧
      (EdgesClosed st → EdgesClosed (dfs catalog root compN availN fuel code st)) := by
  intro fuel
  induction fuel with
  | zero => intro code st; exact ⟨NExt_rfl, fun h => h⟩
  | succ n ih =>
    intro code st
    exact dfsBody_pres catalog root compN availN (dfs catalog root compN availN n)
      (fun code₂ st₂ => ih code₂ st₂) code st

/-- The breadth-first loop of `build_future_graph` preserves edge closedness. -/
lemma bfs_pres (catalog : Catalog) (compN availN : List String) (max_depth : Nat) :
    ∀ (fuel : Nat) (queue : List (String × Nat)) (st : GState),
      EdgesClosed st →
      EdgesClosed (bfs catalog compN availN max_depth fuel queue st) := by
  intro fuel
  induction fuel with
  | zero => intro queue st h; exact h
  | succ n ih =>
    intro queue st hc
    rcases queue with - | ⟨⟨code, depth⟩, rest⟩
    · exact hc
    · rw [bfs]
      set code_n := _normalize_code code with hcode
      by_cases hv : st.visited.contains code_n = true
      · rw [if_pos hv]
        exact ih rest st hc
      · rw [if_neg hv]
        set st₁ : GState := { st with visited := st.visited ++ [code_n] } with hst₁
        have hc₁ : EdgesClosed st₁ := edgesClosed_of_next ⟨[], by simp [hst₁]⟩ rfl hc
        set st₂ := addNodeF catalog compN availN code_n st₁ with hst₂
        have hext₂ : NExt st₁ st₂ := addNodeF_next catalog compN availN code_n st₁
        have hc₂ : EdgesClosed st₂ :=
          edgesClosed_of_next hext₂ (addNodeF_edges catalog compN availN code_n st₁) hc₁
        have hmem₂ : code_n ∈ nodeIds st₂ := by
          have := addNodeF_mem catalog compN availN code_n st₁
          rwa [hcode, normalize_idem] at this
        by_cases hd : max_depth ≤ depth
        · rw [if_pos hd]
          exact ih rest st₂ hc₂
        · rw [if_neg hd]
          have hstep : ∀ (acc : GState × List (String × Nat)),
              EdgesClosed acc.1 ∧ code_n ∈ nodeIds acc.1 →
              EdgesClosed ((adjacencyFor catalog code_n).foldl
                (fun (acc : GState × List (String × Nat)) nl =>
                  let nbr_n := _normalize_code nl.1
                  let st₃ := addNodeF catalog compN availN nbr_n acc.1
                  let st₄ := { st₃ with
                    edges := st₃.edges ++
                      [{ id := "e" ++ toString st₃.edgeId, efrom := code_n, eto := nbr_n, label := nl.2 }]
                    , edgeId := st₃.edgeId + 1 }
                  (st₄, acc.2 ++ [(nbr_n, depth + 1)])) acc).1 := by
            intro acc hacc
            refine (foldlPreserve
              (fun acc₂ : GState × List (String × Nat) =>
                EdgesClosed acc₂.1 ∧ code_n ∈ nodeIds acc₂.1) _
              (adjacencyFor catalog code_n) acc ?_ hacc).1
            intro acc₂ nl _ hP
            obtain ⟨hcl, hmem⟩ := hP
            set nbr_n := _normalize_code nl.1 with hnbr
            set st₃ := addNodeF catalog compN availN nbr_n acc₂.1 with hst₃
            have hext₃ : NExt acc₂.1 st₃ := addNodeF_next catalog compN availN nbr_n acc₂.1
            have hcl₃ : EdgesClosed st₃ :=
              edgesClosed_of_next hext₃ (addNodeF_edges catalog compN availN nbr_n acc₂.1) hcl
            have hmem₃ : code_n ∈ nodeIds st₃ := nodeIds_mono hext₃ _ hmem
            have hnbr₃ : nbr_n ∈ nodeIds st₃ := by
              have := addNodeF_mem catalog compN availN nbr_n acc₂.1
              rwa [hnbr, normalize_idem] at this
            constructor
            · intro e hmeme
              rcases List.mem_append.1 hmeme with hmeme | hmeme
              · obtain ⟨h₁, h₂⟩ := hcl₃ e hmeme
                exact ⟨h₁, h₂⟩
              · have : e = { id := "e" ++ toString st₃.edgeId, efrom := code_n, eto := nbr_n
                           , label := nl.2 } := by
                  simpa using hmeme
                subst this
                exact ⟨hmem₃, hnbr₃⟩
            · exact hmem₃
          exact ih _ _ (hstep (st₂, []) ⟨hc₂, hmem₂⟩)

/-- C7: no builder returns dangling edges — for every catalog, root,
completed/available sets, and depth bound, every edge of `build_prereq_graph`
and every edge of `build_future_graph` has both its `from` id and its `to` id
among the ids of the node list returned by the same call. -/
theorem graph_edges_closed (catalog : Catalog) (root_code : String)
    (completed available : List String) (max_depth : Nat) :
    (∀ e ∈ (build_prereq_graph catalog root_code completed available max_depth).2,
      e.efrom ∈ (build_prereq_graph catalog root_code completed available max_depth).1.map
        (fun n => n.id) ∧
      e.eto ∈ (build_prereq_graph catalog root_code completed available max_depth).1.map
        (fun n => n.id)) ∧
    (∀ e ∈ (build_future_graph catalog completed available max_depth).2,
      e.efrom ∈ (build_future_graph catalog completed available max_depth).1.map
        (fun n => n.id) ∧
      e.eto ∈ (build_future_graph catalog completed available max_depth).1.map
        (fun n => n.id)) := by
  constructor
  · unfold build_prereq_graph
    by_cases hroot : (catalog.map (fun kc => kc.1)).contains (_normalize_code root_code) = true
    · rw [if_pos hroot]
      intro e he
      exact (dfs_pres catalog (_normalize_code root_code) (normSet completed)
        (normSet available) (max_depth + 1) (_normalize_code root_code)
        { visited := [], nodes := [], edges := [], edgeId := 0 }).2
        (fun e₂ he₂ => by simp at he₂) e he
    · rw [if_neg hroot]
      intro e he
      simp at he
  · unfold build_future_graph
    intro e he
    exact bfs_pres catalog (normSet completed) (normSet available) max_depth _ _
      { visited := [], nodes := [], edges := [], edgeId := 0 }
      (fun e₂ he₂ => by simp at he₂) e he

/-- C10: when the normalized root code is absent from the catalog,
`build_prereq_graph` silently returns the empty graph (no error, no report). -/
theorem build_prereq_graph_unknown_root (catalog : Catalog) (root_code : String)
    (completed available : List String) (max_depth : Nat)
    (hroot : (catalog.map (fun kc => kc.1)).contains (_normalize_code root_code) = false) :
    build_prereq_graph catalog root_code completed available max_depth = ([], []) := by
  unfold build_prereq_graph
  dsimp only
  rw [if_neg (by rw [hroot]; simp)]

theorem build_prereq_graph_unknown_root_witness :
    build_prereq_graph scenarioCatalog "ZZZZ 999" [] [] 2 = ([], []) :=
  build_prereq_graph_unknown_root scenarioCatalog "ZZZZ 999" [] [] 2 (by decide)

/-- C9: the JSON catalog cache round-trips losslessly — deserializing the
serialization of any catalog yields the original catalog: same keys in the
same order, and every record equal field by field, with each requirement
group's set membership preserved exactly (groups are serialized as sorted
lists, which does not change their membership). -/
theorem catalog_json_round_trip (catalog : Catalog) :
    List.Forall₂ (fun p q => p.1 = q.1 ∧ CourseEquiv p.2 q.2)
      (catalog_from_json_dict (catalog_to_json_dict catalog)) catalog := by
  unfold catalog_from_json_dict catalog_to_json_dict
  rw [List.map_map, List.forall₂_map_left_iff, List.forall₂_same]
  intro kc _
  dsimp only [Function.comp]
  refine ⟨rfl, rfl, rfl, rfl, rfl, ?_, ?_⟩
  · rw [List.forall₂_map_left_iff, List.forall₂_same]
    intro g _ x
    exact mem_sortCodes
  · rw [List.forall₂_map_left_iff, List.forall₂_same]
    intro g _ x
    exact mem_sortCodes

lemma hits_eq_false_iff {g s : List String} : hits g s = false ↔ ∀ x ∈ g, x ∉ s := by
  rw [← Bool.not_eq_true]
  simp [hits, List.any_eq_true]

/-- C6: the Explain Engine's co-requisite check tests each co-requisite group
against `completed ∪ {course_code}` only — the target's own code counts
toward its own co-requisite groups, and the groups collected as
`missing_concurrent` are exactly those with empty intersection with that set.
Membership of other concurrently plannable courses does not satisfy a group
in this check: concretely, CHEM 112 is returned by `available_courses` (its
co-requisite chain resolves within the term), yet its explanation still
reports the co-requisite group {CHEM 111} as missing. -/
theorem explain_why_not_concurrent_check :
    (∀ (catalog : Catalog) (course_code : String) (completed : List String) (e : Explanation),
      explain_why_not catalog course_code completed = some e →
      ∃ kc ∈ catalog, kc.1 = _normalize_code course_code ∧
        e.missing_concurrent =
          (kc.2.concurrent_groups.filter
            (fun g => decide (∀ x ∈ g,
              ¬(x ∈ normSet completed ∨ x = _normalize_code course_code)))).map sortCodes) ∧
    ("CHEM 112" ∈ (available_courses chainCatalog []).map (fun c => c.code) ∧
      explain_why_not chainCatalog "CHEM 112" [] =
        some { missing_prerequisites := [], missing_concurrent := [["CHEM 111"]] }) := by
  constructor
  · intro catalog course_code completed e hexp
    unfold explain_why_not at hexp
    dsimp only at hexp
    rcases hfind : catFind catalog (_normalize_code course_code) with - | c
    · rw [hfind] at hexp
      simp at hexp
    · rw [hfind] at hexp
      obtain ⟨kc, hmem, hk₁, hk₂⟩ := catFind_eq_some hfind
      refine ⟨kc, hmem, hk₁, ?_⟩
      have he : e = Explanation.mk
          ((c.prereq_groups.filter
            (fun g => !(hits g (normSet completed)))).map sortCodes)
          ((c.concurrent_groups.filter
            (fun g => !(hits g (normSet completed ++ [_normalize_code course_code])))).map
            sortCodes) := by
        exact (Option.some.inj hexp).symm
      rw [he, hk₂]
      refine congrArg _ (List.filter_congr ?_)
      intro g _
      rw [Bool.eq_iff_iff]
      constructor
      · intro hb
        rw [Bool.not_eq_true'] at hb
        rw [decide_eq_true_eq]
        intro x hx hor
        have := hits_eq_false_iff.1 hb x hx
        refine this ?_
        rw [List.mem_append]
        rcases hor with h | h
        · exact Or.inl h
        · exact Or.inr (by simpa using h)
      · intro hb
        rw [decide_eq_true_eq] at hb
        rw [Bool.not_eq_true']
        rw [hits_eq_false_iff]
        intro x hx hmemx
        rcases List.mem_append.1 hmemx with h | h
        · exact hb x hx (Or.inl h)
        · exact hb x hx (Or.inr (by simpa using h))
  · constructor
    · decide
    · decide

theorem explain_why_not_concurrent_check_witness :
    ∃ kc ∈ chainCatalog, kc.1 = _normalize_code "CHEM 112" ∧
      (Explanation.mk [] [["CHEM 111"]]).missing_concurrent =
        (kc.2.concurrent_groups.filter
          (fun g => decide (∀ x ∈ g,
            ¬(x ∈ normSet [] ∨ x = _normalize_code "CHEM 112")))).map sortCodes :=
  explain_why_not_concurrent_check.1 chainCatalog "CHEM 112" []
    (Explanation.mk [] [["CHEM 111"]]) (by decide)

/-- C8: the progression-graph builder respects `max_nodes` as an upper bound
on the node count, and its node list is exactly the accumulated node-code set
sorted by normalized code and truncated deterministically to the first
`max_nodes` entries in sort order. -/
theorem build_progression_graph_max_nodes (catalog : Catalog) (completed : List String)
    (max_depth max_nodes : Nat) :
    (build_progression_graph catalog completed max_depth max_nodes).1.length ≤ max_nodes ∧
    (build_progression_graph catalog completed max_depth max_nodes).1.map (fun n => n.id) =
      (sortCodes (progressionCodes catalog completed max_depth)).take max_nodes := by
  constructor
  · rw [build_progression_graph]
    dsimp only
    rw [List.length_map]
    exact List.length_take_le _ _
  · rw [build_progression_graph]
    dsimp only
    rw [List.map_map]
    have : ((fun n : PNode => n.id) ∘ (fun code : String =>
        ({ id := code, label := code
         , status := if (normSet completed).contains code then "completed"
             else if ((available_courses catalog completed).map (fun c => c.code)).contains code
               then "eligible" else "locked"
         , level := node_level code } : PNode))) = id := by
      funext code
      rfl
    rw [this, List.map_id]

end CoursePlanner
